import Mathlib

/-!
Verification of `communication_graph.py` against its specification.

The source is a Python library of three predicates on "communication graphs"
(`isNeighborhoodCorrect`, `isUndirected`, `isTree`), where a graph is a
`dict[int, set[int]]` but callers may pass arbitrarily malformed data.

Shallow embedding choices:
* `PyVal` models the universe of Python values the library can plausibly
  receive: integers, strings, lists, sets and dicts.  A Python `set` is
  modelled as its (finite) iteration sequence, a `dict` as its key/value
  entry sequence in iteration order.
* Python raising an exception is modelled by `Option`/`BfsResult` failure
  values; functions of the source that can provably not raise are `Bool`.
* The unbounded `while queue:` loop of the source's BFS is modelled by a
  fuel-indexed recursion `bfsRun`; `isTree` calls it with the explicit bound
  `fuelBound`, and a theorem shows this fuel is never exhausted, so the
  embedding computes exactly the loop's result.
* Values realizable as actual Python objects satisfy `realizableB`: dict
  keys and set elements must be hashable (here: `int` or `str`), dict keys
  are pairwise distinct, and set elements are pairwise distinct.
-/

namespace CommGraph

/-- The universe of Python values considered: ints, strings, lists, sets
(as their element sequence) and dicts (as their entry sequence). -/
inductive PyVal where
  | int : Int → PyVal
  | str : String → PyVal
  | list : List PyVal → PyVal
  | set : List PyVal → PyVal
  | dict : List (PyVal × PyVal) → PyVal

mutual
/-- Structural boolean equality on `PyVal` (coincides with Python `==` on
the hashable values the source ever compares). -/
def pyBeq : PyVal → PyVal → Bool
  | .int a, .int b => a == b
  | .str a, .str b => a == b
  | .list a, .list b => pyBeqList a b
  | .set a, .set b => pyBeqList a b
  | .dict a, .dict b => pyBeqEntries a b
  | _, _ => false

/-- Elementwise `pyBeq` on lists of values. -/
def pyBeqList : List PyVal → List PyVal → Bool
  | [], [] => true
  | a :: as, b :: bs => pyBeq a b && pyBeqList as bs
  | _, _ => false

/-- Entrywise `pyBeq` on dict entry lists. -/
def pyBeqEntries : List (PyVal × PyVal) → List (PyVal × PyVal) → Bool
  | [], [] => true
  | (k, v) :: as, (k', v') :: bs => pyBeq k k' && pyBeq v v' && pyBeqEntries as bs
  | _, _ => false
end

mutual
theorem pyBeq_eq : ∀ a b : PyVal, pyBeq a b = true → a = b
  | .int _, .int _, h => congrArg PyVal.int (by simpa [pyBeq] using h)
  | .str _, .str _, h => congrArg PyVal.str (by simpa [pyBeq] using h)
  | .list a, .list b, h =>
    have h' : pyBeqList a b = true := by simpa [pyBeq] using h
    congrArg PyVal.list (pyBeqList_eq a b h')
  | .set a, .set b, h =>
    have h' : pyBeqList a b = true := by simpa [pyBeq] using h
    congrArg PyVal.set (pyBeqList_eq a b h')
  | .dict a, .dict b, h =>
    have h' : pyBeqEntries a b = true := by simpa [pyBeq] using h
    congrArg PyVal.dict (pyBeqEntries_eq a b h')
  | .int _, .str _, h => by simp [pyBeq] at h
  | .int _, .list _, h => by simp [pyBeq] at h
  | .int _, .set _, h => by simp [pyBeq] at h
  | .int _, .dict _, h => by simp [pyBeq] at h
  | .str _, .int _, h => by simp [pyBeq] at h
  | .str _, .list _, h => by simp [pyBeq] at h
  | .str _, .set _, h => by simp [pyBeq] at h
  | .str _, .dict _, h => by simp [pyBeq] at h
  | .list _, .int _, h => by simp [pyBeq] at h
  | .list _, .str _, h => by simp [pyBeq] at h
  | .list _, .set _, h => by simp [pyBeq] at h
  | .list _, .dict _, h => by simp [pyBeq] at h
  | .set _, .int _, h => by simp [pyBeq] at h
  | .set _, .str _, h => by simp [pyBeq] at h
  | .set _, .list _, h => by simp [pyBeq] at h
  | .set _, .dict _, h => by simp [pyBeq] at h
  | .dict _, .int _, h => by simp [pyBeq] at h
  | .dict _, .str _, h => by simp [pyBeq] at h
  | .dict _, .list _, h => by simp [pyBeq] at h
  | .dict _, .set _, h => by simp [pyBeq] at h

theorem pyBeqList_eq : ∀ a b : List PyVal, pyBeqList a b = true → a = b
  | [], [], _ => rfl
  | [], _ :: _, h => by simp [pyBeqList] at h
  | _ :: _, [], h => by simp [pyBeqList] at h
  | a :: as, b :: bs, h =>
    have h' : pyBeq a b = true ∧ pyBeqList as bs = true := by
      simpa [pyBeqList, Bool.and_eq_true] using h
    have h1 : a = b := pyBeq_eq a b h'.1
    have h2 : as = bs := pyBeqList_eq as bs h'.2
    by rw [h1, h2]

theorem pyBeqEntries_eq : ∀ a b : List (PyVal × PyVal), pyBeqEntries a b = true → a = b
  | [], [], _ => rfl
  | [], _ :: _, h => by simp [pyBeqEntries] at h
  | _ :: _, [], h => by simp [pyBeqEntries] at h
  | (k, v) :: as, (k', v') :: bs, h =>
    have h' : (pyBeq k k' = true ∧ pyBeq v v' = true) ∧ pyBeqEntries as bs = true := by
      simpa [pyBeqEntries, Bool.and_eq_true] using h
    have h1 : k = k' := pyBeq_eq k k' h'.1.1
    have h2 : v = v' := pyBeq_eq v v' h'.1.2
    have h3 : as = bs := pyBeqEntries_eq as bs h'.2
    by rw [h1, h2, h3]
end

mutual
theorem pyBeq_refl : ∀ a : PyVal, pyBeq a a = true
  | .int _ => by simp [pyBeq]
  | .str _ => by simp [pyBeq]
  | .list l =>
    have h := pyBeqList_refl l
    by simpa [pyBeq] using h
  | .set l =>
    have h := pyBeqList_refl l
    by simpa [pyBeq] using h
  | .dict es =>
    have h := pyBeqEntries_refl es
    by simpa [pyBeq] using h

theorem pyBeqList_refl : ∀ l : List PyVal, pyBeqList l l = true
  | [] => rfl
  | x :: xs =>
    have h1 := pyBeq_refl x
    have h2 := pyBeqList_refl xs
    by simp [pyBeqList, h1, h2]

theorem pyBeqEntries_refl : ∀ es : List (PyVal × PyVal), pyBeqEntries es es = true
  | [] => rfl
  | (k, v) :: rest =>
    have h1 := pyBeq_refl k
    have h2 := pyBeq_refl v
    have h3 := pyBeqEntries_refl rest
    by simp [pyBeqEntries, h1, h2, h3]
end

instance : DecidableEq PyVal := fun a b =>
  decidable_of_iff (pyBeq a b = true)
    ⟨pyBeq_eq a b, fun h => by rw [h]; exact pyBeq_refl b⟩

/-- The keys of a dict's entry list, in order (Python `neighborhood.keys()`). -/
def keys (es : List (PyVal × PyVal)) : List PyVal :=
  es.map Prod.fst

/-- Python dict lookup `d[k]`: the value of the first entry whose key equals
`k`; `none` models a raised `KeyError`.  (Actual Python dicts have distinct
keys, so "first" is exact.) -/
def lookup : List (PyVal × PyVal) → PyVal → Option PyVal
  | [], _ => none
  | (k, v) :: rest, x => if k = x then some v else lookup rest x

/-- Python `isinstance(x, int)` inside this value universe. -/
def isIntB : PyVal → Bool
  | .int _ => true
  | _ => false

/-- Python iteration `for x in v`: the element sequence, or `none` for a
`TypeError` (iterating an `int`).  Iterating a dict yields its keys, and a
string yields its one-character substrings. -/
def pyIter : PyVal → Option (List PyVal)
  | .int _ => none
  | .str s => some (s.data.map (fun c => .str (String.mk [c])))
  | .list l => some l
  | .set l => some l
  | .dict es => some (keys es)

/-- Python `len(v)`, `none` for a `TypeError` (`len` of an `int`). -/
def pyLen : PyVal → Option Nat
  | .int _ => none
  | .str s => some s.length
  | .list l => some l.length
  | .set l => some l.length
  | .dict es => some es.length

/-- Whether the character list `pre` heads the character list `l`. -/
def leadsWith : List Char → List Char → Bool
  | [], _ => true
  | _ :: _, [] => false
  | a :: as, b :: bs => decide (a = b) && leadsWith as bs

/-- Python substring containment `sub in hay` on character lists. -/
def strIn (sub : List Char) : List Char → Bool
  | [] => leadsWith sub []
  | b :: bs => leadsWith sub (b :: bs) || strIn sub bs

/-- Python membership `x in v`: `none` models a `TypeError` (`in` on an
`int`, or a non-string element tested against a string). -/
def memB (x : PyVal) : PyVal → Option Bool
  | .int _ => none
  | .str s =>
    match x with
    | .str sub => some (strIn sub.data s.data)
    | _ => none
  | .list l => some (decide (x ∈ l))
  | .set l => some (decide (x ∈ l))
  | .dict es => some (decide (x ∈ keys es))

/-- The length of the element sequence a `PyVal` yields when iterated
(`0` for an `int`, which cannot be iterated). -/
def entrySize : PyVal → Nat
  | .int _ => 0
  | .str s => s.length
  | .list l => l.length
  | .set l => l.length
  | .dict es => es.length

/-- Pairwise distinctness of a list of values, as a boolean. -/
def nodupB : List PyVal → Bool
  | [] => true
  | x :: xs => !(decide (x ∈ xs)) && nodupB xs

/-- Python hashability inside this value universe: only ints and strings
(lists, sets, dicts are unhashable). -/
def hashableB : PyVal → Bool
  | .int _ => true
  | .str _ => true
  | _ => false

mutual
/-- Whether a `PyVal` is realizable as an actual Python object: set elements
and dict keys are hashable, set elements are pairwise distinct, and dict
keys are pairwise distinct. -/
def realizableB : PyVal → Bool
  | .int _ => true
  | .str _ => true
  | .list xs => realizableListB xs
  | .set xs => xs.all hashableB && nodupB xs
  | .dict es => realizableEntriesB es && nodupB (keys es)

/-- Realizability of every element of a list value. -/
def realizableListB : List PyVal → Bool
  | [] => true
  | x :: xs => realizableB x && realizableListB xs

/-- Realizability of dict entries: hashable keys, realizable values. -/
def realizableEntriesB : List (PyVal × PyVal) → Bool
  | [] => true
  | (k, v) :: rest => hashableB k && realizableB v && realizableEntriesB rest
end

/-! ## `isNeighborhoodCorrect` (the structural-validity predicate) -/

/-- The per-neighbor-set part of `isNeighborhoodCorrect`'s loop body: the
value must be a `set`, and every member must be an int, present among the
vertex ids, and different from the owning vertex. -/
def checkNbrs (vs : List PyVal) (vertex : PyVal) : PyVal → Bool
  | .set l => l.all (fun nbr => isIntB nbr && decide (nbr ∈ vs) && !(decide (nbr = vertex)))
  | _ => false

/-- One iteration of `isNeighborhoodCorrect`'s loop over `neighborhood.items()`. -/
def checkEntry (vs : List PyVal) (p : PyVal × PyVal) : Bool :=
  isIntB p.1 && checkNbrs vs p.1 p.2

/-- Embedding of `isNeighborhoodCorrect` (source lines 17-51): the input must
be a dict, every key an int, every value a set of ints drawn from the key
set, and no self-loops. -/
def isNeighborhoodCorrect : PyVal → Bool
  | .dict es => es.all (checkEntry (keys es))
  | _ => false

/-! ## `isUndirected` -/

/-- Inner loop of `isUndirected`: `for v in neighbors: if u not in
neighborhood[v]: return False`.  A failed lookup or an unusable membership
test models the corresponding Python exception as `none`. -/
def symLoop (es : List (PyVal × PyVal)) (u : PyVal) : List PyVal → Option Bool
  | [] => some true
  | v :: rest =>
    match lookup es v with
    | none => none
    | some nv =>
      match memB u nv with
      | none => none
      | some b => if b then symLoop es u rest else some false

/-- Outer loop of `isUndirected` over `neighborhood.items()`. -/
def symEntries (es : List (PyVal × PyVal)) : List (PyVal × PyVal) → Option Bool
  | [] => some true
  | (u, nbrs) :: rest =>
    match pyIter nbrs with
    | none => none
    | some l =>
      match symLoop es u l with
      | none => none
      | some b => if b then symEntries es rest else some false

/-- Embedding of `isUndirected` (source lines 54-68).  `none` models a raised
exception (provably unreachable); `some b` is the returned boolean. -/
def isUndirected (v : PyVal) : Option Bool :=
  if !(isNeighborhoodCorrect v) then some false
  else
    match v with
    | .dict es => symEntries es es
    | _ => none

/-! ## `isTree` and its BFS -/

/-- `sum(len(neighbors) for neighbors in neighborhood.values())`; `none`
models a `TypeError` from `len` on a non-sized value. -/
def sumLens : List (PyVal × PyVal) → Option Nat
  | [] => some 0
  | (_, nbrs) :: rest =>
    match pyLen nbrs with
    | none => none
    | some k =>
      match sumLens rest with
      | none => none
      | some s => some (k + s)

/-- Result of the BFS loop: normal completion with the visited set (as the
insertion-ordered list of its elements), a raised exception, or fuel
exhaustion (shown unreachable at `fuelBound`). -/
inductive BfsResult where
  | ok : List PyVal → BfsResult
  | err : BfsResult
  | fuelOut : BfsResult
deriving DecidableEq

/-- Fuel-indexed embedding of the source's BFS loop (lines 105-112): pop `u`;
skip it if already visited; otherwise mark it visited and enqueue its
not-yet-visited neighbors.  `.err` models a raised `KeyError`/`TypeError`. -/
def bfsRun (es : List (PyVal × PyVal)) : Nat → List PyVal → List PyVal → BfsResult
  | _, [], vis => .ok vis
  | 0, _ :: _, _ => .fuelOut
  | f + 1, u :: rest, vis =>
    if u ∈ vis then bfsRun es f rest vis
    else
      match lookup es u with
      | none => .err
      | some nbrs =>
        match pyIter nbrs with
        | none => .err
        | some l => bfsRun es f (rest ++ l.filter (fun x => !(decide (x ∈ u :: vis)))) (u :: vis)

/-- The total weight of the entries whose key is not yet visited, plus one
per entry for the visit itself: an upper bound on the BFS work left. -/
def graphWeight : List (PyVal × PyVal) → List PyVal → Nat
  | [], _ => 0
  | p :: rest, vis =>
    (if p.1 ∈ vis then 0 else 1 + entrySize p.2) + graphWeight rest vis

/-- The fuel `isTree` hands to `bfsRun`; proved sufficient. -/
def fuelBound (es : List (PyVal × PyVal)) : Nat :=
  1 + graphWeight es []

/-- The part of `isTree` after both validity guards (source lines 87-114),
on the entry list of the dict: vertex count, doubled edge count with the
parity and `n - 1` checks, then the BFS connectivity check starting from the
first key (`next(iter(neighborhood))`). -/
def isTreeCore : List (PyVal × PyVal) → Option Bool
  | [] => some false
  | (start, s0) :: rest =>
    match sumLens ((start, s0) :: rest) with
    | none => none
    | some et =>
      if et % 2 = 0 then
        if et / 2 = ((start, s0) :: rest).length - 1 then
          match bfsRun ((start, s0) :: rest) (fuelBound ((start, s0) :: rest)) [start] [] with
          | .ok visited => some (decide (visited.length = ((start, s0) :: rest).length))
          | _ => none
        else some false
      else some false

/-- Embedding of `isTree` (source lines 71-114). -/
def isTree (v : PyVal) : Option Bool :=
  if !(isNeighborhoodCorrect v) then some false
  else
    match isUndirected v with
    | none => none
    | some false => some false
    | some true =>
      match v with
      | .dict es => isTreeCore es
      | _ => none

/-- The variant of `isTree` with the leading `isNeighborhoodCorrect` guard
removed (claim C10's refinement target): it relies on `isUndirected`
performing that same check. -/
def isTreeNoGuard (v : PyVal) : Option Bool :=
  match isUndirected v with
  | none => none
  | some false => some false
  | some true =>
    match v with
    | .dict es => isTreeCore es
    | _ => none

/-! ## Basic facts about dict lookup and keys -/

theorem lookup_some_mem {es : List (PyVal × PyVal)} {x v : PyVal}
    (h : lookup es x = some v) : (x, v) ∈ es := by
  induction es with
  | nil => simp [lookup] at h
  | cons p rest ih =>
    obtain ⟨k, w⟩ := p
    by_cases hk : k = x
    · subst hk
      simp [lookup] at h
      simp [h]
    · simp [lookup, hk] at h
      exact List.mem_cons_of_mem _ (ih h)

theorem lookup_some_key {es : List (PyVal × PyVal)} {x v : PyVal}
    (h : lookup es x = some v) : x ∈ keys es := by
  have := lookup_some_mem h
  exact List.mem_map_of_mem Prod.fst this

theorem mem_keys_lookup {es : List (PyVal × PyVal)} {x : PyVal}
    (h : x ∈ keys es) : ∃ v, lookup es x = some v := by
  induction es with
  | nil => simp [keys] at h
  | cons p rest ih =>
    obtain ⟨k, w⟩ := p
    by_cases hk : k = x
    · exact ⟨w, by simp [lookup, hk]⟩
    · simp [keys, hk] at h
      rcases h with h | h
      · exact absurd h.symm hk
      · obtain ⟨v, hv⟩ := ih (by simpa [keys] using h)
        exact ⟨v, by simp [lookup, hk, hv]⟩

theorem lookup_eq_of_mem_nodup {es : List (PyVal × PyVal)} {x v : PyVal}
    (hnd : (keys es).Nodup) (h : (x, v) ∈ es) : lookup es x = some v := by
  induction es with
  | nil => simp at h
  | cons p rest ih =>
    obtain ⟨k, w⟩ := p
    rw [keys, List.map_cons, List.nodup_cons] at hnd
    rcases List.mem_cons.mp h with h | h
    · simp only [Prod.mk.injEq] at h
      rw [lookup, if_pos h.1.symm, h.2]
    · have hkx : k ≠ x := by
        intro hkx
        subst hkx
        have h2 := List.mem_map_of_mem Prod.fst h
        exact hnd.1 h2
      rw [lookup, if_neg hkx]
      exact ih hnd.2 h

theorem lookup_none_iff {es : List (PyVal × PyVal)} {x : PyVal} :
    lookup es x = none ↔ x ∉ keys es := by
  constructor
  · intro h hx
    obtain ⟨v, hv⟩ := mem_keys_lookup hx
    rw [h] at hv
    cases hv
  · intro hx
    cases hl : lookup es x with
    | none => rfl
    | some v => exact absurd (lookup_some_key hl) hx

theorem nodupB_iff {l : List PyVal} : nodupB l = true ↔ l.Nodup := by
  induction l with
  | nil => simp [nodupB]
  | cons x xs ih => simp [nodupB, ih]

theorem pyIter_length {x : PyVal} {l : List PyVal}
    (h : pyIter x = some l) : l.length = entrySize x := by
  cases x with
  | int n => simp [pyIter] at h
  | str s =>
    simp only [pyIter, Option.some.injEq] at h
    rw [← h, List.length_map]
    rfl
  | list l' => simp_all [pyIter, entrySize]
  | set l' => simp_all [pyIter, entrySize]
  | dict es =>
    simp only [pyIter, Option.some.injEq] at h
    rw [← h, keys, List.length_map]
    rfl

/-! ## Characterization of `isNeighborhoodCorrect` -/

/-- The four structural invariants of spec §3 on a dict's entry list (key
uniqueness is a fact of Python dicts, recorded separately): every key an
int, every value a set of ints, a closed vertex set, and no self-loops. -/
structure ValidG (es : List (PyVal × PyVal)) : Prop where
  intKey : ∀ p ∈ es, ∃ k : Int, p.1 = .int k
  setVal : ∀ p ∈ es, ∃ l, p.2 = .set l
  intNbr : ∀ p ∈ es, ∀ l, p.2 = .set l → ∀ x ∈ l, ∃ m : Int, x = .int m
  closed : ∀ p ∈ es, ∀ l, p.2 = .set l → ∀ x ∈ l, x ∈ keys es
  noLoop : ∀ p ∈ es, ∀ l, p.2 = .set l → ∀ x ∈ l, x ≠ p.1

theorem isIntB_iff {x : PyVal} : isIntB x = true ↔ ∃ k : Int, x = .int k := by
  cases x <;> simp [isIntB]

theorem correct_iff {es : List (PyVal × PyVal)} :
    isNeighborhoodCorrect (.dict es) = true ↔ ValidG es := by
  constructor
  · intro h
    simp only [isNeighborhoodCorrect, List.all_eq_true] at h
    have hentry : ∀ p ∈ es, isIntB p.1 = true ∧ checkNbrs (keys es) p.1 p.2 = true := by
      intro p hp
      have := h p hp
      simpa [checkEntry, Bool.and_eq_true] using this
    refine ⟨?_, ?_, ?_, ?_, ?_⟩
    · intro p hp
      exact isIntB_iff.mp (hentry p hp).1
    · intro p hp
      have h2 := (hentry p hp).2
      cases hv : p.2 <;> rw [hv] at h2 <;> simp [checkNbrs] at h2
      exact ⟨_, rfl⟩
    · intro p hp l hl x hx
      have h2 := (hentry p hp).2
      rw [hl] at h2
      simp only [checkNbrs, List.all_eq_true] at h2
      have := h2 x hx
      simp [Bool.and_eq_true] at this
      exact isIntB_iff.mp (by simpa using this.1.1)
    · intro p hp l hl x hx
      have h2 := (hentry p hp).2
      rw [hl] at h2
      simp only [checkNbrs, List.all_eq_true] at h2
      have := h2 x hx
      simp [Bool.and_eq_true] at this
      exact this.1.2
    · intro p hp l hl x hx
      have h2 := (hentry p hp).2
      rw [hl] at h2
      simp only [checkNbrs, List.all_eq_true] at h2
      have := h2 x hx
      simp [Bool.and_eq_true] at this
      exact this.2
  · intro hv
    simp only [isNeighborhoodCorrect, List.all_eq_true]
    intro p hp
    obtain ⟨l, hl⟩ := hv.setVal p hp
    have hik : isIntB p.1 = true := isIntB_iff.mpr (hv.intKey p hp)
    simp only [checkEntry, hik, Bool.true_and, hl, checkNbrs, List.all_eq_true]
    intro x hx
    have h1 : isIntB x = true := isIntB_iff.mpr (hv.intNbr p hp l hl x hx)
    have h2 : x ∈ keys es := hv.closed p hp l hl x hx
    have h3 : x ≠ p.1 := hv.noLoop p hp l hl x hx
    simp [h1, h2, h3]

theorem correct_dict {v : PyVal} (h : isNeighborhoodCorrect v = true) :
    ∃ es, v = .dict es := by
  cases v <;> simp_all [isNeighborhoodCorrect]

theorem realizable_dict_iff {es : List (PyVal × PyVal)} :
    realizableB (.dict es) = true ↔
      (∀ p ∈ es, hashableB p.1 = true ∧ realizableB p.2 = true) ∧ (keys es).Nodup := by
  rw [realizableB, Bool.and_eq_true, nodupB_iff]
  constructor
  · rintro ⟨h1, h2⟩
    refine ⟨?_, h2⟩
    induction es with
    | nil => simp
    | cons p rest ih =>
      obtain ⟨k, w⟩ := p
      rw [realizableEntriesB, Bool.and_eq_true, Bool.and_eq_true] at h1
      intro q hq
      rcases List.mem_cons.mp hq with rfl | hq
      · exact ⟨h1.1.1, h1.1.2⟩
      · exact ih h1.2 (by simpa [keys] using (List.nodup_cons.mp (by simpa [keys] using h2)).2) q hq
  · rintro ⟨h1, h2⟩
    refine ⟨?_, h2⟩
    induction es with
    | nil => rfl
    | cons p rest ih =>
      obtain ⟨k, w⟩ := p
      rw [realizableEntriesB, Bool.and_eq_true, Bool.and_eq_true]
      exact ⟨⟨(h1 (k, w) (by simp)).1, (h1 (k, w) (by simp)).2⟩,
        ih (fun q hq => h1 q (List.mem_cons_of_mem _ hq))
          (by simpa [keys] using (List.nodup_cons.mp (by simpa [keys] using h2)).2)⟩

theorem realizable_set_iff {l : List PyVal} :
    realizableB (.set l) = true ↔ (∀ x ∈ l, hashableB x = true) ∧ l.Nodup := by
  rw [realizableB, Bool.and_eq_true, nodupB_iff, List.all_eq_true]

/-! ## Characterization of `isUndirected` -/

/-- Edge symmetry (spec §4.1): for every vertex `u` and every neighbor `x`
of `u`, `u` appears in the neighbor set of `x`. -/
def SymP (es : List (PyVal × PyVal)) : Prop :=
  ∀ p ∈ es, ∀ l, p.2 = .set l → ∀ x ∈ l,
    ∃ l', lookup es x = some (.set l') ∧ p.1 ∈ l'

theorem symLoop_total_iff {es : List (PyVal × PyVal)} (hv : ValidG es) (u : PyVal) :
    ∀ lvals : List PyVal, (∀ x ∈ lvals, x ∈ keys es) →
    ∃ b, symLoop es u lvals = some b ∧
      (b = true ↔ ∀ x ∈ lvals, ∃ l', lookup es x = some (.set l') ∧ u ∈ l') := by
  intro lvals
  induction lvals with
  | nil => exact fun _ => ⟨true, rfl, by simp⟩
  | cons v rest ih =>
    intro hsub
    have hvk : v ∈ keys es := hsub v (List.mem_cons_self v rest)
    obtain ⟨nv, hnv⟩ := mem_keys_lookup hvk
    obtain ⟨l', hl'⟩ := hv.setVal (v, nv) (lookup_some_mem hnv)
    rw [show (v, nv).2 = nv from rfl] at hl'
    rw [hl'] at hnv
    by_cases hu : u ∈ l'
    · obtain ⟨b, hb, hiff⟩ := ih (fun x hx => hsub x (List.mem_cons_of_mem v hx))
      refine ⟨b, ?_, ?_⟩
      · rw [symLoop, hnv]
        simp [memB, hu, hb]
      · rw [hiff]
        constructor
        · intro h x hx
          rcases List.mem_cons.mp hx with rfl | hx
          · exact ⟨l', hnv, hu⟩
          · exact h x hx
        · exact fun h x hx => h x (List.mem_cons_of_mem v hx)
    · refine ⟨false, ?_, iff_of_false (by simp) ?_⟩
      · rw [symLoop, hnv]
        simp [memB, hu]
      · intro h
        obtain ⟨l'', h1, h2⟩ := h v (List.mem_cons_self v rest)
        rw [hnv] at h1
        injection h1 with h1
        injection h1 with h1
        exact hu (h1.symm ▸ h2)

theorem symEntries_total_iff {es : List (PyVal × PyVal)} (hv : ValidG es) :
    ∀ todo : List (PyVal × PyVal), (∀ p ∈ todo, p ∈ es) →
    ∃ b, symEntries es todo = some b ∧
      (b = true ↔ ∀ p ∈ todo, ∀ l, p.2 = .set l → ∀ x ∈ l,
        ∃ l', lookup es x = some (.set l') ∧ p.1 ∈ l') := by
  intro todo
  induction todo with
  | nil => exact fun _ => ⟨true, rfl, by simp⟩
  | cons p rest ih =>
    intro hsub
    obtain ⟨u, nbrs⟩ := p
    have hpe : (u, nbrs) ∈ es := hsub _ (List.mem_cons_self _ rest)
    obtain ⟨l, hl⟩ := hv.setVal (u, nbrs) hpe
    rw [show (u, nbrs).2 = nbrs from rfl] at hl
    have hiterl : pyIter nbrs = some l := by rw [hl]; rfl
    have hlsub : ∀ x ∈ l, x ∈ keys es := hv.closed (u, nbrs) hpe l hl
    obtain ⟨b1, hb1, hiff1⟩ := symLoop_total_iff hv u l hlsub
    cases b1 with
    | true =>
      obtain ⟨b2, hb2, hiff2⟩ := ih (fun q hq => hsub q (List.mem_cons_of_mem _ hq))
      refine ⟨b2, ?_, ?_⟩
      · rw [symEntries, hiterl]
        simp [hb1, hb2]
      · rw [hiff2]
        constructor
        · intro h q hq l₀ hl₀ x hx
          rcases List.mem_cons.mp hq with rfl | hq
          · rw [show (u, nbrs).2 = nbrs from rfl, hl] at hl₀
            injection hl₀ with hl₀
            subst hl₀
            exact hiff1.mp rfl x hx
          · exact h q hq l₀ hl₀ x hx
        · exact fun h q hq => h q (List.mem_cons_of_mem _ hq)
    | false =>
      refine ⟨false, ?_, iff_of_false (by simp) ?_⟩
      · rw [symEntries, hiterl]
        simp [hb1]
      · intro h
        have h2 := hiff1.mpr (fun x hx => h (u, nbrs) (List.mem_cons_self _ rest) l hl x hx)
        cases h2

theorem isUndirected_of_not_correct {v : PyVal}
    (hc : isNeighborhoodCorrect v = false) : isUndirected v = some false := by
  cases v <;> simp [isUndirected, hc]

theorem isUndirected_dict_eq {es : List (PyVal × PyVal)}
    (hc : isNeighborhoodCorrect (.dict es) = true) :
    isUndirected (.dict es) = symEntries es es := by
  simp [isUndirected, hc]

/-- The central characterization of `isUndirected`: it returns `True`
exactly on dicts satisfying the structural invariants and edge symmetry. -/
theorem isUndirected_true_iff {v : PyVal} :
    isUndirected v = some true ↔ ∃ es, v = .dict es ∧ ValidG es ∧ SymP es := by
  cases hc : isNeighborhoodCorrect v with
  | false =>
    rw [isUndirected_of_not_correct hc]
    constructor
    · intro h
      cases h
    · rintro ⟨es, rfl, hval, _⟩
      rw [correct_iff.mpr hval] at hc
      cases hc
  | true =>
    obtain ⟨es, rfl⟩ := correct_dict hc
    have hval : ValidG es := correct_iff.mp hc
    obtain ⟨b, hb, hiff⟩ := symEntries_total_iff hval es (fun p hp => hp)
    rw [isUndirected_dict_eq hc, hb]
    constructor
    · intro h
      injection h with h
      exact ⟨es, rfl, hval, hiff.mp h⟩
    · rintro ⟨es', hes, _, hsym⟩
      injection hes with hes
      subst hes
      exact congrArg some (hiff.mpr hsym)

/-- `isUndirected` never raises: it always returns a boolean. -/
theorem isUndirected_isSome (v : PyVal) : (isUndirected v).isSome := by
  cases hc : isNeighborhoodCorrect v with
  | false =>
    rw [isUndirected_of_not_correct hc]
    rfl
  | true =>
    obtain ⟨es, rfl⟩ := correct_dict hc
    have hval : ValidG es := correct_iff.mp hc
    obtain ⟨b, hb, _⟩ := symEntries_total_iff hval es (fun p hp => hp)
    rw [isUndirected_dict_eq hc, hb]
    rfl

theorem isUndirected_correct {v : PyVal} (h : isUndirected v = some true) :
    isNeighborhoodCorrect v = true := by
  cases hc : isNeighborhoodCorrect v with
  | true => rfl
  | false =>
    rw [isUndirected_of_not_correct hc] at h
    cases h

/-! ## The BFS of `isTree`: termination, safety and correctness -/

/-- The adjacency relation read off a dict's entries: `b` lies in the stored
neighbor set of `a`. -/
def Adj (es : List (PyVal × PyVal)) (a b : PyVal) : Prop :=
  ∃ l, lookup es a = some (.set l) ∧ b ∈ l

/-- Reachability along stored edges. -/
def Reach (es : List (PyVal × PyVal)) : PyVal → PyVal → Prop :=
  Relation.ReflTransGen (Adj es)

theorem adj_symm {es : List (PyVal × PyVal)} (hsym : SymP es) {a b : PyVal}
    (h : Adj es a b) : Adj es b a := by
  obtain ⟨l, hl, hb⟩ := h
  have hmem := lookup_some_mem hl
  obtain ⟨l', hl', ha⟩ := hsym (a, .set l) hmem l rfl b hb
  exact ⟨l', hl', ha⟩

theorem reach_symm {es : List (PyVal × PyVal)} (hsym : SymP es) {a b : PyVal}
    (h : Reach es a b) : Reach es b a := by
  induction h with
  | refl => exact Relation.ReflTransGen.refl
  | tail _ hadj ih =>
    exact Relation.ReflTransGen.trans
      (Relation.ReflTransGen.single (adj_symm hsym hadj)) ih

theorem graphWeight_cons_le (es : List (PyVal × PyVal)) (u : PyVal) (vis : List PyVal) :
    graphWeight es (u :: vis) ≤ graphWeight es vis := by
  induction es with
  | nil => exact Nat.le_refl 0
  | cons p rest ih =>
    rw [graphWeight, graphWeight]
    by_cases hv : p.1 ∈ vis
    · have hv' : p.1 ∈ u :: vis := List.mem_cons_of_mem u hv
      simp only [if_pos hv, if_pos hv']
      omega
    · by_cases hu : p.1 ∈ u :: vis
      · simp only [if_pos hu, if_neg hv]
        omega
      · simp only [if_neg hu, if_neg hv]
        omega

theorem graphWeight_lookup_drop {es : List (PyVal × PyVal)} {u nb : PyVal}
    {vis : List PyVal} (hu : u ∉ vis) (hl : lookup es u = some nb) :
    graphWeight es (u :: vis) + (1 + entrySize nb) ≤ graphWeight es vis := by
  induction es with
  | nil => simp [lookup] at hl
  | cons p rest ih =>
    obtain ⟨k, w⟩ := p
    rw [graphWeight, graphWeight]
    by_cases hk : k = u
    · subst hk
      rw [lookup, if_pos rfl] at hl
      injection hl with hl
      subst hl
      have h1 : (k : PyVal) ∈ k :: vis := List.mem_cons_self k vis
      simp only [if_pos h1, if_neg hu]
      have := graphWeight_cons_le rest k vis
      omega
    · rw [lookup, if_neg hk] at hl
      have hiff : ((k : PyVal) ∈ u :: vis) ↔ (k : PyVal) ∈ vis := by
        constructor
        · intro h
          rcases List.mem_cons.mp h with h | h
          · exact absurd h hk
          · exact h
        · exact List.mem_cons_of_mem u
      by_cases hv : (k : PyVal) ∈ vis
      · simp only [if_pos hv, if_pos (hiff.mpr hv)]
        have := ih hl
        omega
      · simp only [if_neg hv, if_neg (fun h => hv (hiff.mp h))]
        have := ih hl
        omega

theorem bfsRun_ne_fuelOut {es : List (PyVal × PyVal)} :
    ∀ (f : Nat) (q vis : List PyVal), q.length + graphWeight es vis ≤ f →
    bfsRun es f q vis ≠ .fuelOut := by
  intro f
  induction f with
  | zero =>
    intro q vis h
    cases q with
    | nil => simp [bfsRun]
    | cons u rest => simp at h
  | succ f ih =>
    intro q vis h
    cases q with
    | nil => simp [bfsRun]
    | cons u rest =>
      rw [bfsRun]
      by_cases hvis : u ∈ vis
      · rw [if_pos hvis]
        apply ih
        simp at h
        omega
      · rw [if_neg hvis]
        split
        · intro hcontra
          cases hcontra
        · rename_i nbrs hlk
          split
          · intro hcontra
            cases hcontra
          · rename_i l hit
            apply ih
            have hlen : l.length = entrySize nbrs := pyIter_length hit
            have hdrop := graphWeight_lookup_drop hvis hlk
            have hfil : (l.filter (fun x => !(decide (x ∈ u :: vis)))).length ≤ l.length :=
              List.length_filter_le _ l
            simp only [List.length_append, List.length_cons] at h ⊢
            omega

theorem bfsRun_ne_err {es : List (PyVal × PyVal)} (hval : ValidG es) :
    ∀ (f : Nat) (q vis : List PyVal), (∀ x ∈ q, x ∈ keys es) →
    bfsRun es f q vis ≠ .err := by
  intro f
  induction f with
  | zero =>
    intro q vis _
    cases q with
    | nil => simp [bfsRun]
    | cons u rest => simp [bfsRun]
  | succ f ih =>
    intro q vis hq
    cases q with
    | nil => simp [bfsRun]
    | cons u rest =>
      rw [bfsRun]
      by_cases hvis : u ∈ vis
      · rw [if_pos hvis]
        exact ih rest vis (fun x hx => hq x (List.mem_cons_of_mem u hx))
      · rw [if_neg hvis]
        split
        · rename_i hlk
          obtain ⟨nb, hnb⟩ := mem_keys_lookup (hq u (List.mem_cons_self u rest))
          rw [hlk] at hnb
          cases hnb
        · rename_i nbrs hlk
          obtain ⟨l, hl⟩ := hval.setVal (u, nbrs) (lookup_some_mem hlk)
          rw [show (u, nbrs).2 = nbrs from rfl] at hl
          subst hl
          show bfsRun es f (rest ++ l.filter (fun x => !(decide (x ∈ u :: vis)))) (u :: vis) ≠
            BfsResult.err
          apply ih
          intro x hx
          rcases List.mem_append.mp hx with hx | hx
          · exact hq x (List.mem_cons_of_mem u hx)
          · have hxl : x ∈ l := List.mem_of_mem_filter hx
            exact hval.closed (u, .set l) (lookup_some_mem hlk) l rfl x hxl

theorem bfsRun_ok_sub {es : List (PyVal × PyVal)} :
    ∀ (f : Nat) (q vis out : List PyVal), bfsRun es f q vis = .ok out →
    ∀ x ∈ out, x ∈ vis ∨ x ∈ keys es := by
  intro f
  induction f with
  | zero =>
    intro q vis out h x hx
    cases q with
    | nil =>
      rw [bfsRun] at h
      injection h with h
      exact Or.inl (h ▸ hx)
    | cons u rest =>
      rw [bfsRun] at h
      cases h
  | succ f ih =>
    intro q vis out h x hx
    cases q with
    | nil =>
      rw [bfsRun] at h
      injection h with h
      exact Or.inl (h ▸ hx)
    | cons u rest =>
      rw [bfsRun] at h
      by_cases hvis : u ∈ vis
      · rw [if_pos hvis] at h
        exact ih rest vis out h x hx
      · rw [if_neg hvis] at h
        split at h
        · cases h
        · rename_i nbrs hlk
          split at h
          · cases h
          · rename_i l hit
            rcases ih _ _ out h x hx with hx' | hx'
            · rcases List.mem_cons.mp hx' with rfl | hx'
              · exact Or.inr (lookup_some_key hlk)
              · exact Or.inl hx'
            · exact Or.inr hx'

theorem bfsRun_ok_vis_sub {es : List (PyVal × PyVal)} :
    ∀ (f : Nat) (q vis out : List PyVal), bfsRun es f q vis = .ok out →
    ∀ x ∈ vis, x ∈ out := by
  intro f
  induction f with
  | zero =>
    intro q vis out h x hx
    cases q with
    | nil =>
      rw [bfsRun] at h
      injection h with h
      exact h ▸ hx
    | cons u rest =>
      rw [bfsRun] at h
      cases h
  | succ f ih =>
    intro q vis out h x hx
    cases q with
    | nil =>
      rw [bfsRun] at h
      injection h with h
      exact h ▸ hx
    | cons u rest =>
      rw [bfsRun] at h
      by_cases hvis : u ∈ vis
      · rw [if_pos hvis] at h
        exact ih rest vis out h x hx
      · rw [if_neg hvis] at h
        split at h
        · cases h
        · rename_i nbrs hlk
          split at h
          · cases h
          · rename_i l hit
            exact ih _ _ out h x (List.mem_cons_of_mem u hx)

theorem bfsRun_ok_nodup {es : List (PyVal × PyVal)} :
    ∀ (f : Nat) (q vis out : List PyVal), bfsRun es f q vis = .ok out →
    vis.Nodup → out.Nodup := by
  intro f
  induction f with
  | zero =>
    intro q vis out h hnd
    cases q with
    | nil =>
      rw [bfsRun] at h
      injection h with h
      exact h ▸ hnd
    | cons u rest =>
      rw [bfsRun] at h
      cases h
  | succ f ih =>
    intro q vis out h hnd
    cases q with
    | nil =>
      rw [bfsRun] at h
      injection h with h
      exact h ▸ hnd
    | cons u rest =>
      rw [bfsRun] at h
      by_cases hvis : u ∈ vis
      · rw [if_pos hvis] at h
        exact ih rest vis out h hnd
      · rw [if_neg hvis] at h
        split at h
        · cases h
        · rename_i nbrs hlk
          split at h
          · cases h
          · rename_i l hit
            exact ih _ _ out h (List.nodup_cons.mpr ⟨hvis, hnd⟩)

theorem bfsRun_ok_start {es : List (PyVal × PyVal)} :
    ∀ (f : Nat) (q vis out : List PyVal), bfsRun es f q vis = .ok out →
    ∀ s, s ∈ q ∨ s ∈ vis → s ∈ out := by
  intro f
  induction f with
  | zero =>
    intro q vis out h s hs
    cases q with
    | nil =>
      rw [bfsRun] at h
      injection h with h
      rcases hs with hs | hs
      · cases hs
      · exact h ▸ hs
    | cons u rest =>
      rw [bfsRun] at h
      cases h
  | succ f ih =>
    intro q vis out h s hs
    cases q with
    | nil =>
      rw [bfsRun] at h
      injection h with h
      rcases hs with hs | hs
      · cases hs
      · exact h ▸ hs
    | cons u rest =>
      rw [bfsRun] at h
      by_cases hvis : u ∈ vis
      · rw [if_pos hvis] at h
        refine ih rest vis out h s ?_
        rcases hs with hs | hs
        · rcases List.mem_cons.mp hs with rfl | hs
          · exact Or.inr hvis
          · exact Or.inl hs
        · exact Or.inr hs
      · rw [if_neg hvis] at h
        split at h
        · cases h
        · rename_i nbrs hlk
          split at h
          · cases h
          · rename_i l hit
            refine ih _ _ out h s ?_
            rcases hs with hs | hs
            · rcases List.mem_cons.mp hs with rfl | hs
              · exact Or.inr (List.mem_cons_self s vis)
              · exact Or.inl (List.mem_append_left _ hs)
            · exact Or.inr (List.mem_cons_of_mem u hs)

theorem bfsRun_ok_reach {es : List (PyVal × PyVal)} (hval : ValidG es) (s : PyVal) :
    ∀ (f : Nat) (q vis out : List PyVal), bfsRun es f q vis = .ok out →
    (∀ x ∈ q, Reach es s x) → (∀ x ∈ vis, Reach es s x) →
    ∀ x ∈ out, Reach es s x := by
  intro f
  induction f with
  | zero =>
    intro q vis out h hq hvisr x hx
    cases q with
    | nil =>
      rw [bfsRun] at h
      injection h with h
      exact hvisr x (h ▸ hx)
    | cons u rest =>
      rw [bfsRun] at h
      cases h
  | succ f ih =>
    intro q vis out h hq hvisr x hx
    cases q with
    | nil =>
      rw [bfsRun] at h
      injection h with h
      exact hvisr x (h ▸ hx)
    | cons u rest =>
      rw [bfsRun] at h
      by_cases hvis : u ∈ vis
      · rw [if_pos hvis] at h
        exact ih rest vis out h (fun y hy => hq y (List.mem_cons_of_mem u hy)) hvisr x hx
      · rw [if_neg hvis] at h
        split at h
        · cases h
        · rename_i nbrs hlk
          split at h
          · cases h
          · rename_i l hit
            have hru : Reach es s u := hq u (List.mem_cons_self u rest)
            obtain ⟨l0, hl0⟩ := hval.setVal (u, nbrs) (lookup_some_mem hlk)
            rw [show (u, nbrs).2 = nbrs from rfl] at hl0
            subst hl0
            have hll : l = l0 := by
              simp [pyIter] at hit
              exact hit.symm
            subst hll
            refine ih _ _ out h ?_ ?_ x hx
            · intro y hy
              rcases List.mem_append.mp hy with hy | hy
              · exact hq y (List.mem_cons_of_mem u hy)
              · have hyl : y ∈ l := List.mem_of_mem_filter hy
                exact Relation.ReflTransGen.tail hru ⟨l, hlk, hyl⟩
            · intro y hy
              rcases List.mem_cons.mp hy with rfl | hy
              · exact hru
              · exact hvisr y hy

theorem bfsRun_ok_closed {es : List (PyVal × PyVal)} :
    ∀ (f : Nat) (q vis out : List PyVal), bfsRun es f q vis = .ok out →
    (∀ u ∈ vis, ∀ l, lookup es u = some (.set l) → ∀ x ∈ l, x ∈ vis ∨ x ∈ q) →
    ∀ u ∈ out, ∀ l, lookup es u = some (.set l) → ∀ x ∈ l, x ∈ out := by
  intro f
  induction f with
  | zero =>
    intro q vis out h hinv u hu l hl x hx
    cases q with
    | nil =>
      rw [bfsRun] at h
      injection h with h
      subst h
      rcases hinv u hu l hl x hx with hx' | hx'
      · exact hx'
      · cases hx'
    | cons w rest =>
      rw [bfsRun] at h
      cases h
  | succ f ih =>
    intro q vis out h hinv u hu l hl x hx
    cases q with
    | nil =>
      rw [bfsRun] at h
      injection h with h
      subst h
      rcases hinv u hu l hl x hx with hx' | hx'
      · exact hx'
      · cases hx'
    | cons w rest =>
      rw [bfsRun] at h
      by_cases hvis : w ∈ vis
      · rw [if_pos hvis] at h
        refine ih rest vis out h ?_ u hu l hl x hx
        intro u' hu' l' hl' x' hx'
        rcases hinv u' hu' l' hl' x' hx' with hx'' | hx''
        · exact Or.inl hx''
        · rcases List.mem_cons.mp hx'' with rfl | hx''
          · exact Or.inl hvis
          · exact Or.inr hx''
      · rw [if_neg hvis] at h
        split at h
        · cases h
        · rename_i nbrs hlk
          split at h
          · cases h
          · rename_i lw hit
            refine ih _ _ out h ?_ u hu l hl x hx
            intro u' hu' l' hl' x' hx'
            rcases List.mem_cons.mp hu' with rfl | hu'
            · rw [hlk] at hl'
              injection hl' with hl'
              subst hl'
              simp only [pyIter, Option.some.injEq] at hit
              by_cases hx'' : x' ∈ u' :: vis
              · exact Or.inl hx''
              · refine Or.inr (List.mem_append_right rest ?_)
                exact List.mem_filter.mpr ⟨hit ▸ hx', by simpa using hx''⟩
            · rcases hinv u' hu' l' hl' x' hx' with hx'' | hx''
              · exact Or.inl (List.mem_cons_of_mem _ hx'')
              · rcases List.mem_cons.mp hx'' with rfl | hx''
                · exact Or.inl (List.mem_cons_self _ vis)
                · exact Or.inr (List.mem_append_left _ hx'')

theorem bfsRun_ok_complete {es : List (PyVal × PyVal)} {f : Nat} {s : PyVal}
    {out : List PyVal} (hout : bfsRun es f [s] [] = .ok out) :
    ∀ x, Reach es s x → x ∈ out := by
  have hclosed := bfsRun_ok_closed f [s] [] out hout (by intro u hu; cases hu)
  have hstart : s ∈ out :=
    bfsRun_ok_start f [s] [] out hout s (Or.inl (List.mem_cons_self s []))
  intro x hx
  induction hx with
  | refl => exact hstart
  | tail _ hadj ihr =>
    obtain ⟨l, hl, hb⟩ := hadj
    exact hclosed _ ihr l hl _ hb

theorem bfsRun_ok_sound {es : List (PyVal × PyVal)} (hval : ValidG es) {f : Nat}
    {s : PyVal} {out : List PyVal} (hout : bfsRun es f [s] [] = .ok out) :
    ∀ x ∈ out, Reach es s x := by
  refine bfsRun_ok_reach hval s f [s] [] out hout ?_ ?_
  · intro x hx
    rcases List.mem_cons.mp hx with rfl | hx
    · exact Relation.ReflTransGen.refl
    · cases hx
  · intro x hx
    cases hx

/-- The master counting lemma: a successful BFS from `s` visits a number of
vertices equal to the vertex count exactly when every key is reachable
from `s`. -/
theorem bfs_count_iff {es : List (PyVal × PyVal)} (hval : ValidG es)
    (hnd : (keys es).Nodup) {f : Nat} {s : PyVal} {out : List PyVal}
    (hout : bfsRun es f [s] [] = .ok out) :
    (out.length = es.length ↔ ∀ k ∈ keys es, Reach es s k) := by
  have hsub : ∀ x ∈ out, x ∈ keys es := by
    intro x hx
    rcases bfsRun_ok_sub f [s] [] out hout x hx with hx' | hx'
    · cases hx'
    · exact hx'
  have hndout : out.Nodup := bfsRun_ok_nodup f [s] [] out hout List.nodup_nil
  have hkeylen : (keys es).length = es.length := by
    rw [keys, List.length_map]
  have hc1 : out.toFinset.card = out.length := List.toFinset_card_of_nodup hndout
  have hc2 : (keys es).toFinset.card = (keys es).length := List.toFinset_card_of_nodup hnd
  have h1 : out.toFinset ⊆ (keys es).toFinset := by
    intro x hx
    rw [List.mem_toFinset] at hx ⊢
    exact hsub x hx
  constructor
  · intro hlen k hk
    have heq : out.toFinset = (keys es).toFinset :=
      Finset.eq_of_subset_of_card_le h1 (by omega)
    have hk_out : k ∈ out := by
      rw [← List.mem_toFinset, heq, List.mem_toFinset] at *
      exact hk
    exact bfsRun_ok_sound hval hout k hk_out
  · intro hall
    have h2 : (keys es).toFinset ⊆ out.toFinset := by
      intro k hk
      rw [List.mem_toFinset] at hk ⊢
      exact bfsRun_ok_complete hout k (hall k hk)
    have heq : out.toFinset = (keys es).toFinset := Finset.Subset.antisymm h1 h2
    have := congrArg Finset.card heq
    omega

/-! ## Unfolding helpers for `isTree` -/

theorem isTree_of_not_correct {v : PyVal} (hc : isNeighborhoodCorrect v = false) :
    isTree v = some false := by
  cases v <;> simp [isTree, hc]

theorem isTree_undirected_false {v : PyVal} (hu : isUndirected v = some false) :
    isTree v = some false := by
  cases hc : isNeighborhoodCorrect v with
  | false => exact isTree_of_not_correct hc
  | true =>
    obtain ⟨es, rfl⟩ := correct_dict hc
    simp [isTree, hc, hu]

theorem isTree_undirected_true {es : List (PyVal × PyVal)}
    (hu : isUndirected (.dict es) = some true) :
    isTree (.dict es) = isTreeCore es := by
  have hc := isUndirected_correct hu
  simp [isTree, hc, hu]

/-! ## Degree sum and edge counting -/

/-- The sum of the sizes of all stored neighbor sets ("edges counted
twice"). -/
def degSum (es : List (PyVal × PyVal)) : Nat :=
  (es.map (fun p => entrySize p.2)).sum

theorem sumLens_eq {es : List (PyVal × PyVal)}
    (hsets : ∀ p ∈ es, ∃ l, p.2 = .set l) : sumLens es = some (degSum es) := by
  induction es with
  | nil => rfl
  | cons p rest ih =>
    obtain ⟨u, nbrs⟩ := p
    obtain ⟨l, hl⟩ := hsets (u, nbrs) (List.mem_cons_self _ rest)
    rw [show (u, nbrs).2 = nbrs from rfl] at hl
    subst hl
    have ih' := ih (fun q hq => hsets q (List.mem_cons_of_mem _ hq))
    rw [sumLens, ih']
    simp [pyLen, degSum, entrySize]

/-- Decidable adjacency: `b` is in the neighbor set stored for `a`. -/
def adjB (es : List (PyVal × PyVal)) (a b : PyVal) : Bool :=
  match lookup es a with
  | some (.set l) => decide (b ∈ l)
  | _ => false

theorem adjB_iff {es : List (PyVal × PyVal)} {a b : PyVal} :
    adjB es a b = true ↔ Adj es a b := by
  rw [adjB]
  split
  · rename_i l heq
    simp only [decide_eq_true_eq]
    constructor
    · intro h
      exact ⟨l, heq, h⟩
    · rintro ⟨l', h1, h2⟩
      rw [heq] at h1
      injection h1 with h1
      injection h1 with h1
      exact h1 ▸ h2
  · rename_i hne
    constructor
    · intro h
      cases h
    · rintro ⟨l', h1, _⟩
      exact absurd h1 (hne l')

/-- The set of ordered adjacent key pairs; each undirected edge of a
symmetric loop-free graph appears here exactly twice. -/
def edgePairs (es : List (PyVal × PyVal)) : Finset (PyVal × PyVal) :=
  ((keys es).toFinset ×ˢ (keys es).toFinset).filter (fun p => adjB es p.1 p.2 = true)

/-- The number of undirected edges of the graph (each edge is stored twice
in the adjacency sets of its two symmetric endpoints). -/
def undirectedEdgeCount (es : List (PyVal × PyVal)) : Nat :=
  (edgePairs es).card / 2

theorem mem_edgePairs {es : List (PyVal × PyVal)} {p : PyVal × PyVal} :
    p ∈ edgePairs es ↔ p.1 ∈ keys es ∧ p.2 ∈ keys es ∧ Adj es p.1 p.2 := by
  rw [edgePairs, Finset.mem_filter, Finset.mem_product]
  rw [List.mem_toFinset, List.mem_toFinset, adjB_iff, and_assoc]

/-- The stored neighbor-set size of a key (0 when absent or not a set). -/
def sizeAt (es : List (PyVal × PyVal)) (a : PyVal) : Nat :=
  match lookup es a with
  | some (.set l) => l.length
  | _ => 0

theorem degSum_eq_sum_sizeAt {es : List (PyVal × PyVal)} (hnd : (keys es).Nodup)
    (hsets : ∀ p ∈ es, ∃ l, p.2 = .set l) :
    degSum es = ∑ a ∈ (keys es).toFinset, sizeAt es a := by
  induction es with
  | nil => rfl
  | cons p rest ih =>
    obtain ⟨k, w⟩ := p
    rw [keys, List.map_cons, List.nodup_cons] at hnd
    obtain ⟨l, hl⟩ := hsets (k, w) (List.mem_cons_self _ rest)
    rw [show (k, w).2 = w from rfl] at hl
    subst hl
    have hknotin : k ∉ (keys rest).toFinset := by
      rw [List.mem_toFinset]
      exact hnd.1
    have hlk : lookup ((k, PyVal.set l) :: rest) k = some (.set l) := by
      rw [lookup, if_pos rfl]
    have hsz : sizeAt ((k, PyVal.set l) :: rest) k = l.length := by
      rw [sizeAt, hlk]
    have hagree : ∀ a ∈ (keys rest).toFinset,
        sizeAt ((k, PyVal.set l) :: rest) a = sizeAt rest a := by
      intro a ha
      rw [List.mem_toFinset] at ha
      have hka : k ≠ a := by
        intro hka
        exact hnd.1 (hka ▸ ha)
      rw [sizeAt, sizeAt, lookup, if_neg hka]
    have ih' := ih hnd.2 (fun q hq => hsets q (List.mem_cons_of_mem _ hq))
    have hkeys : keys ((k, PyVal.set l) :: rest) = k :: keys rest := rfl
    have hsummed : ∑ a ∈ (keys ((k, PyVal.set l) :: rest)).toFinset,
        sizeAt ((k, PyVal.set l) :: rest) a
        = l.length + ∑ a ∈ (keys rest).toFinset, sizeAt rest a := by
      rw [hkeys, List.toFinset_cons, Finset.sum_insert hknotin, hsz]
      congr 1
      exact Finset.sum_congr rfl hagree
    rw [hsummed, ← ih']
    rw [degSum, List.map_cons, List.sum_cons]
    rfl

theorem sizeAt_eq_card {es : List (PyVal × PyVal)} (hval : ValidG es)
    (hsetnd : ∀ p ∈ es, ∀ l, p.2 = .set l → l.Nodup) {a : PyVal}
    (ha : a ∈ keys es) :
    sizeAt es a = ((keys es).toFinset.filter (fun b => adjB es a b = true)).card := by
  obtain ⟨v, hv⟩ := mem_keys_lookup ha
  have hmem := lookup_some_mem hv
  obtain ⟨l, hl⟩ := hval.setVal (a, v) hmem
  rw [show (a, v).2 = v from rfl] at hl
  subst hl
  have hfilter : (keys es).toFinset.filter (fun b => adjB es a b = true) = l.toFinset := by
    ext b
    rw [Finset.mem_filter, List.mem_toFinset, List.mem_toFinset, adjB_iff]
    constructor
    · rintro ⟨_, l', h1, h2⟩
      rw [hv] at h1
      injection h1 with h1
      injection h1 with h1
      exact h1 ▸ h2
    · intro hb
      exact ⟨hval.closed (a, .set l) hmem l rfl b hb, l, hv, hb⟩
  rw [hfilter, sizeAt, hv]
  exact (List.toFinset_card_of_nodup (hsetnd (a, .set l) hmem l rfl)).symm

theorem card_edgePairs {es : List (PyVal × PyVal)} (hval : ValidG es)
    (hnd : (keys es).Nodup)
    (hsetnd : ∀ p ∈ es, ∀ l, p.2 = .set l → l.Nodup) :
    (edgePairs es).card = degSum es := by
  rw [edgePairs, Finset.card_filter, Finset.sum_product]
  have hinner : ∀ a ∈ (keys es).toFinset,
      (∑ b ∈ (keys es).toFinset, ite (adjB es a b = true) 1 0)
        = sizeAt es a := by
    intro a ha
    rw [← Finset.card_filter]
    rw [List.mem_toFinset] at ha
    exact (sizeAt_eq_card hval hsetnd ha).symm
  rw [Finset.sum_congr rfl hinner]
  exact (degSum_eq_sum_sizeAt hnd hval.setVal).symm

theorem edgePairs_even {es : List (PyVal × PyVal)} (hval : ValidG es)
    (hsym : SymP es) : Even (edgePairs es).card := by
  have h0 : ∑ _p ∈ edgePairs es, (1 : ZMod 2) = 0 := by
    refine Finset.sum_involution (fun p _ => (p.2, p.1)) ?_ ?_ ?_ ?_
    · intro a _
      decide
    · intro a ha _
      intro hcontra
      have h1 : a.2 = a.1 := congrArg Prod.fst hcontra
      have hadj : Adj es a.1 a.2 := (mem_edgePairs.mp ha).2.2
      obtain ⟨l, hl, hb⟩ := hadj
      have hmem := lookup_some_mem hl
      exact hval.noLoop (a.1, .set l) hmem l rfl a.2 hb (by rw [h1])
    · intro a ha
      rw [mem_edgePairs] at ha ⊢
      exact ⟨ha.2.1, ha.1, adj_symm hsym ha.2.2⟩
    · intro a _
      rfl
  have hcast : ((edgePairs es).card : ZMod 2) = 0 := by
    rw [Finset.card_eq_sum_ones, Nat.cast_sum]
    simpa using h0
  have hdvd : (2 : Nat) ∣ (edgePairs es).card :=
    (ZMod.natCast_zmod_eq_zero_iff_dvd _ 2).mp hcast
  rw [Nat.even_iff]
  omega

/-- Under validity, key uniqueness, element uniqueness and symmetry, the
degree sum is even: the defensive parity branch of `isTree` cannot fire. -/
theorem degSum_even {es : List (PyVal × PyVal)} (hval : ValidG es)
    (hnd : (keys es).Nodup)
    (hsetnd : ∀ p ∈ es, ∀ l, p.2 = .set l → l.Nodup)
    (hsym : SymP es) : degSum es % 2 = 0 := by
  have h := edgePairs_even hval hsym
  rw [card_edgePairs hval hnd hsetnd] at h
  exact Nat.even_iff.mp h

/-! ## Characterization of `isTree` -/

theorem bfsRun_start_ok {es : List (PyVal × PyVal)} (hval : ValidG es) {start : PyVal}
    (hs : start ∈ keys es) :
    ∃ out, bfsRun es (fuelBound es) [start] [] = .ok out := by
  have h1 : bfsRun es (fuelBound es) [start] [] ≠ .fuelOut := by
    apply bfsRun_ne_fuelOut
    show [start].length + graphWeight es [] ≤ fuelBound es
    rw [fuelBound]
    simp
  have h2 : bfsRun es (fuelBound es) [start] [] ≠ .err := by
    apply bfsRun_ne_err hval
    intro x hx
    rcases List.mem_cons.mp hx with rfl | hx
    · exact hs
    · cases hx
  rcases hr : bfsRun es (fuelBound es) [start] [] with out | _ | _
  · exact ⟨out, rfl⟩
  · exact absurd hr h2
  · exact absurd hr h1

theorem isTreeCore_isSome {es : List (PyVal × PyVal)} (hval : ValidG es) :
    (isTreeCore es).isSome := by
  cases es with
  | nil => rfl
  | cons p rest =>
    obtain ⟨start, s0⟩ := p
    have hsum : sumLens ((start, s0) :: rest) = some (degSum ((start, s0) :: rest)) :=
      sumLens_eq hval.setVal
    have hsmem : start ∈ keys ((start, s0) :: rest) :=
      List.mem_cons_self start (keys rest)
    obtain ⟨out, hout⟩ := bfsRun_start_ok hval hsmem
    by_cases h2 : degSum ((start, s0) :: rest) % 2 = 0
    · by_cases h3 : degSum ((start, s0) :: rest) / 2 = ((start, s0) :: rest).length - 1
      · simp [isTreeCore, hsum, h2, h3, hout]
      · have h3' : ¬degSum ((start, s0) :: rest) / 2 = rest.length := by simpa using h3
        simp [isTreeCore, hsum, h2, h3']
    · simp [isTreeCore, hsum, h2]

theorem isTreeCore_spec {es : List (PyVal × PyVal)} (hval : ValidG es)
    (hnd : (keys es).Nodup) {start : PyVal} {s0 : PyVal} {rest : List (PyVal × PyVal)}
    (hes : es = (start, s0) :: rest) :
    ∃ b, isTreeCore es = some b ∧
      (b = true ↔ degSum es % 2 = 0 ∧ degSum es / 2 = es.length - 1 ∧
        ∀ k ∈ keys es, Reach es start k) := by
  subst hes
  have hsum : sumLens ((start, s0) :: rest) = some (degSum ((start, s0) :: rest)) :=
    sumLens_eq hval.setVal
  have hsmem : start ∈ keys ((start, s0) :: rest) :=
    List.mem_cons_self start (keys rest)
  obtain ⟨out, hout⟩ := bfsRun_start_ok hval hsmem
  by_cases h2 : degSum ((start, s0) :: rest) % 2 = 0
  · by_cases h3 : degSum ((start, s0) :: rest) / 2 = ((start, s0) :: rest).length - 1
    · refine ⟨decide (out.length = ((start, s0) :: rest).length), ?_, ?_⟩
      · simp [isTreeCore, hsum, h2, h3, hout]
      · rw [decide_eq_true_eq, bfs_count_iff hval hnd hout]
        constructor
        · intro h
          exact ⟨h2, h3, h⟩
        · intro h
          exact h.2.2
    · refine ⟨false, ?_, iff_of_false (by simp) ?_⟩
      · have h3' : ¬degSum ((start, s0) :: rest) / 2 = rest.length := by simpa using h3
        simp [isTreeCore, hsum, h2, h3']
      · intro h
        exact h3 h.2.1
  · refine ⟨false, ?_, iff_of_false (by simp) ?_⟩
    · simp [isTreeCore, hsum, h2]
    · intro h
      exact h2 h.1

/-- Pairwise connectivity of the key set along stored edges. -/
def ConnectedG (es : List (PyVal × PyVal)) : Prop :=
  ∀ a ∈ keys es, ∀ b ∈ keys es, Reach es a b

/-- The specification-side tree property (spec §4.1 `isTree` contract):
a dict whose graph is structurally valid (with the key uniqueness every
Python dict has), undirected, nonempty and connected, with exactly
`n - 1` undirected edges. -/
def SpecTree (v : PyVal) : Prop :=
  ∃ es, v = .dict es ∧ (keys es).Nodup ∧ ValidG es ∧ SymP es ∧ es ≠ [] ∧
    undirectedEdgeCount es = es.length - 1 ∧ ConnectedG es

theorem realizable_dict_parts {es : List (PyVal × PyVal)}
    (hreal : realizableB (.dict es) = true) :
    (keys es).Nodup ∧ (∀ p ∈ es, ∀ l, p.2 = .set l → l.Nodup) := by
  obtain ⟨hent, hnd⟩ := realizable_dict_iff.mp hreal
  refine ⟨hnd, ?_⟩
  intro p hp l hl
  have := (hent p hp).2
  rw [hl] at this
  exact (realizable_set_iff.mp this).2

/-- The central characterization of `isTree` on realizable inputs. -/
theorem isTree_char {v : PyVal} (hreal : realizableB v = true) :
    (isTree v = some true ↔ SpecTree v) := by
  rcases hu : isUndirected v with _ | b
  · have := isUndirected_isSome v
    rw [hu] at this
    cases this
  cases b with
  | false =>
    rw [isTree_undirected_false hu]
    refine iff_of_false (by simp) ?_
    rintro ⟨es, rfl, hnd, hval, hsym, _, _, _⟩
    have : isUndirected (.dict es) = some true :=
      isUndirected_true_iff.mpr ⟨es, rfl, hval, hsym⟩
    rw [hu] at this
    cases this
  | true =>
    obtain ⟨es, rfl, hval, hsym⟩ := isUndirected_true_iff.mp hu
    obtain ⟨hnd, hsetnd⟩ := realizable_dict_parts hreal
    rw [isTree_undirected_true hu]
    cases hes : es with
    | nil =>
      subst hes
      refine iff_of_false (by intro h; cases h) ?_
      rintro ⟨es', heq, _, _, _, hne, _, _⟩
      injection heq with heq
      exact hne heq.symm
    | cons p rest =>
      obtain ⟨start, s0⟩ := p
      subst hes
      obtain ⟨b, hb, hiff⟩ := isTreeCore_spec hval hnd rfl
      rw [hb]
      have hcard : (edgePairs ((start, s0) :: rest)).card
          = degSum ((start, s0) :: rest) := card_edgePairs hval hnd hsetnd
      have hsmem : start ∈ keys ((start, s0) :: rest) :=
        List.mem_cons_self start (keys rest)
      constructor
      · intro h
        injection h with h
        obtain ⟨hpar, hhalf, hall⟩ := hiff.mp h
        refine ⟨(start, s0) :: rest, rfl, hnd, hval, hsym, by simp, ?_, ?_⟩
        · rw [undirectedEdgeCount, hcard]
          exact hhalf
        · intro a ha c hc
          exact Relation.ReflTransGen.trans
            (reach_symm hsym (hall a ha)) (hall c hc)
      · rintro ⟨es', heq, _, _, _, _, hcnt, hconn⟩
        injection heq with heq
        subst heq
        refine congrArg some (hiff.mpr ⟨?_, ?_, ?_⟩)
        · exact degSum_even hval hnd hsetnd hsym
        · rw [undirectedEdgeCount, hcard] at hcnt
          exact hcnt
        · intro k hk
          exact hconn start hsmem k hk

/-- `isTree` never raises: it always returns a boolean. -/
theorem isTree_isSome (v : PyVal) : (isTree v).isSome := by
  cases hc : isNeighborhoodCorrect v with
  | false =>
    rw [isTree_of_not_correct hc]
    rfl
  | true =>
    obtain ⟨es, rfl⟩ := correct_dict hc
    have hval : ValidG es := correct_iff.mp hc
    rcases hu : isUndirected (.dict es) with _ | b
    · have := isUndirected_isSome (.dict es)
      rw [hu] at this
      cases this
    cases b with
    | false =>
      rw [isTree_undirected_false hu]
      rfl
    | true =>
      rw [isTree_undirected_true hu]
      exact isTreeCore_isSome hval

/-! ## Equivalence of graphs up to dict insertion order and set iteration
order (the orders Python leaves unspecified) -/

/-- Two stored values describe the same Python object up to set iteration
order. -/
def ValEquiv (v w : PyVal) : Prop :=
  (∃ l l', v = .set l ∧ w = .set l' ∧ l.Perm l') ∨ v = w

/-- Two dict entries with the same key and `ValEquiv` values. -/
def EntryEquiv (p q : PyVal × PyVal) : Prop :=
  p.1 = q.1 ∧ ValEquiv p.2 q.2

/-- Two entry lists describe the same Python dict contents: equal up to
reordering the entries and reordering each neighbor set. -/
def GraphEquiv (es es' : List (PyVal × PyVal)) : Prop :=
  ∃ mid, List.Forall₂ EntryEquiv es mid ∧ mid.Perm es'

theorem valEquiv_symm {v w : PyVal} (h : ValEquiv v w) : ValEquiv w v := by
  rcases h with ⟨l, l', h1, h2, h3⟩ | rfl
  · exact Or.inl ⟨l', l, h2, h1, h3.symm⟩
  · exact Or.inr rfl

theorem entryEquiv_refl (p : PyVal × PyVal) : EntryEquiv p p :=
  ⟨rfl, Or.inr rfl⟩

theorem entryEquiv_symm {p q : PyVal × PyVal} (h : EntryEquiv p q) : EntryEquiv q p :=
  ⟨h.1.symm, valEquiv_symm h.2⟩

theorem graphEquiv_symm {es es' : List (PyVal × PyVal)}
    (h : GraphEquiv es es') : GraphEquiv es' es := by
  obtain ⟨mid, hf, hp⟩ := h
  have hf' : List.Forall₂ EntryEquiv mid es :=
    (List.Forall₂.flip hf).imp (fun _ _ hpq => entryEquiv_symm hpq)
  exact List.perm_comp_forall₂ hp.symm hf'

theorem forall2_mem_left {α β : Type} {R : α → β → Prop} {l : List α} {m : List β}
    (h : List.Forall₂ R l m) : ∀ a ∈ l, ∃ b ∈ m, R a b := by
  induction h with
  | nil => intro a ha; cases ha
  | cons hr _ ih =>
    intro a ha
    rcases List.mem_cons.mp ha with rfl | ha
    · exact ⟨_, List.mem_cons_self _ _, hr⟩
    · obtain ⟨b, hb, hab⟩ := ih a ha
      exact ⟨b, List.mem_cons_of_mem _ hb, hab⟩

theorem graphEquiv_mem {es es' : List (PyVal × PyVal)} (h : GraphEquiv es es') :
    ∀ p ∈ es, ∃ q ∈ es', EntryEquiv p q := by
  obtain ⟨mid, hf, hp⟩ := h
  intro p hpmem
  obtain ⟨q, hq, hpq⟩ := forall2_mem_left hf p hpmem
  exact ⟨q, hp.mem_iff.mp hq, hpq⟩

theorem forall2_keys_eq {es mid : List (PyVal × PyVal)}
    (h : List.Forall₂ EntryEquiv es mid) : keys es = keys mid := by
  induction h with
  | nil => rfl
  | cons hr _ ih =>
    rw [keys, List.map_cons, keys, List.map_cons]
    rw [keys] at ih
    rw [hr.1, ih]
    rfl

theorem graphEquiv_keys_perm {es es' : List (PyVal × PyVal)}
    (h : GraphEquiv es es') : (keys es).Perm (keys es') := by
  obtain ⟨mid, hf, hp⟩ := h
  rw [forall2_keys_eq hf]
  exact hp.map Prod.fst

theorem graphEquiv_length {es es' : List (PyVal × PyVal)}
    (h : GraphEquiv es es') : es.length = es'.length := by
  obtain ⟨mid, hf, hp⟩ := h
  rw [List.Forall₂.length_eq hf, hp.length_eq]

theorem graphEquiv_lookup {es es' : List (PyVal × PyVal)}
    (hnd : (keys es).Nodup) (h : GraphEquiv es es') (a : PyVal) :
    (lookup es a = none ∧ lookup es' a = none) ∨
    (∃ v w, lookup es a = some v ∧ lookup es' a = some w ∧ ValEquiv v w) := by
  have hperm := graphEquiv_keys_perm h
  have hnd' : (keys es').Nodup := hperm.nodup_iff.mp hnd
  cases hl : lookup es a with
  | none =>
    refine Or.inl ⟨rfl, ?_⟩
    rw [lookup_none_iff] at hl ⊢
    intro hmem
    exact hl (hperm.mem_iff.mpr hmem)
  | some v =>
    have hmem := lookup_some_mem hl
    obtain ⟨q, hq, hpq⟩ := graphEquiv_mem h (a, v) hmem
    have hq1 : q.1 = a := hpq.1.symm
    have hq_mem : (a, q.2) ∈ es' := by
      have : q = (a, q.2) := by
        rw [← hq1]
      rw [← this]
      exact hq
    exact Or.inr ⟨v, q.2, rfl, lookup_eq_of_mem_nodup hnd' hq_mem, hpq.2⟩

theorem adj_equiv {es es' : List (PyVal × PyVal)} (hnd : (keys es).Nodup)
    (h : GraphEquiv es es') (a b : PyVal) : Adj es a b ↔ Adj es' a b := by
  rcases graphEquiv_lookup hnd h a with ⟨h1, h2⟩ | ⟨v, w, h1, h2, hvw⟩
  · constructor
    · rintro ⟨l, hl, _⟩
      rw [h1] at hl
      cases hl
    · rintro ⟨l, hl, _⟩
      rw [h2] at hl
      cases hl
  · constructor
    · rintro ⟨l, hl, hb⟩
      rw [h1] at hl
      injection hl with hl
      subst hl
      rcases hvw with ⟨l0, l', he1, he2, hp⟩ | rfl
      · injection he1 with he1
        subst he1
        exact ⟨l', he2 ▸ h2, hp.mem_iff.mp hb⟩
      · exact ⟨l, h2, hb⟩
    · rintro ⟨l, hl, hb⟩
      rw [h2] at hl
      injection hl with hl
      subst hl
      rcases hvw with ⟨l0, l', he1, he2, hp⟩ | rfl
      · injection he2 with he2
        subst he2
        exact ⟨l0, he1 ▸ h1, hp.mem_iff.mpr hb⟩
      · exact ⟨l, h1, hb⟩

theorem reach_equiv {es es' : List (PyVal × PyVal)} (hnd : (keys es).Nodup)
    (h : GraphEquiv es es') (a b : PyVal) : Reach es a b ↔ Reach es' a b := by
  constructor
  · exact Relation.ReflTransGen.mono (fun x y => (adj_equiv hnd h x y).mp)
  · exact Relation.ReflTransGen.mono (fun x y => (adj_equiv hnd h x y).mpr)

theorem graphEquiv_val_set {q p : PyVal × PyVal} (hpq : EntryEquiv q p)
    {l : List PyVal} (hl : q.2 = .set l) {x : PyVal} (hx : x ∈ l) :
    ∃ lp, p.2 = .set lp ∧ x ∈ lp := by
  rcases hpq.2 with ⟨lq, lp, h1, h2, hperm'⟩ | heq
  · rw [hl] at h1
    injection h1 with h1
    subst h1
    exact ⟨lp, h2, hperm'.mem_iff.mp hx⟩
  · exact ⟨l, heq ▸ hl, hx⟩

theorem validG_equiv {es es' : List (PyVal × PyVal)}
    (h : GraphEquiv es es') (hval : ValidG es) : ValidG es' := by
  have hperm := graphEquiv_keys_perm h
  have hmem := graphEquiv_mem (graphEquiv_symm h)
  refine ⟨?_, ?_, ?_, ?_, ?_⟩
  · intro q hq
    obtain ⟨p, hp, hpq⟩ := hmem q hq
    exact hpq.1 ▸ hval.intKey p hp
  · intro q hq
    obtain ⟨p, hp, hpq⟩ := hmem q hq
    rcases hpq.2 with ⟨lq, lp, h1, h2, _⟩ | heq
    · exact ⟨lq, h1⟩
    · exact heq ▸ hval.setVal p hp
  · intro q hq l hl x hx
    obtain ⟨p, hp, hpq⟩ := hmem q hq
    obtain ⟨lp, hlp, hxlp⟩ := graphEquiv_val_set hpq hl hx
    exact hval.intNbr p hp lp hlp x hxlp
  · intro q hq l hl x hx
    obtain ⟨p, hp, hpq⟩ := hmem q hq
    obtain ⟨lp, hlp, hxlp⟩ := graphEquiv_val_set hpq hl hx
    exact hperm.mem_iff.mp (hval.closed p hp lp hlp x hxlp)
  · intro q hq l hl x hx
    obtain ⟨p, hp, hpq⟩ := hmem q hq
    obtain ⟨lp, hlp, hxlp⟩ := graphEquiv_val_set hpq hl hx
    rw [hpq.1]
    exact hval.noLoop p hp lp hlp x hxlp

theorem symP_equiv {es es' : List (PyVal × PyVal)} (hnd : (keys es).Nodup)
    (h : GraphEquiv es es') (hsym : SymP es) : SymP es' := by
  have hmem := graphEquiv_mem (graphEquiv_symm h)
  intro q hq l hl x hx
  obtain ⟨p, hp, hpq⟩ := hmem q hq
  obtain ⟨lp, hlp, hxlp⟩ := graphEquiv_val_set hpq hl hx
  obtain ⟨l2, hlk2, hp1⟩ := hsym p hp lp hlp x hxlp
  rcases graphEquiv_lookup hnd h x with ⟨h1, _⟩ | ⟨v, w, h1, h2, hvw⟩
  · rw [h1] at hlk2
    cases hlk2
  · rw [h1] at hlk2
    injection hlk2 with hlk2
    subst hlk2
    rcases hvw with ⟨l3, l4, he1, he2, hperm'⟩ | rfl
    · injection he1 with he1
      subst he1
      refine ⟨l4, he2 ▸ h2, ?_⟩
      rw [hpq.1]
      exact hperm'.mem_iff.mp hp1
    · refine ⟨l2, h2, ?_⟩
      rw [hpq.1]
      exact hp1

theorem realizable_equiv {es es' : List (PyVal × PyVal)}
    (h : GraphEquiv es es') (hreal : realizableB (.dict es) = true) :
    realizableB (.dict es') = true := by
  obtain ⟨hent, hnd⟩ := realizable_dict_iff.mp hreal
  have hmem := graphEquiv_mem (graphEquiv_symm h)
  refine realizable_dict_iff.mpr ⟨?_, ?_⟩
  · intro q hq
    obtain ⟨p, hp, hpq⟩ := hmem q hq
    obtain ⟨hh, hr⟩ := hent p hp
    refine ⟨hpq.1 ▸ hh, ?_⟩
    rcases hpq.2 with ⟨lq, lp, h1, h2, hperm'⟩ | heq
    · rw [h2] at hr
      obtain ⟨helem, hnodup⟩ := realizable_set_iff.mp hr
      rw [h1]
      refine realizable_set_iff.mpr ⟨?_, hperm'.nodup_iff.mpr hnodup⟩
      intro x hx
      exact helem x (hperm'.mem_iff.mp hx)
    · exact heq ▸ hr
  · exact (graphEquiv_keys_perm h).nodup_iff.mp hnd

theorem edgePairs_eq_of_equiv {es es' : List (PyVal × PyVal)}
    (hnd : (keys es).Nodup) (h : GraphEquiv es es') :
    edgePairs es = edgePairs es' := by
  have hperm := graphEquiv_keys_perm h
  ext p
  rw [mem_edgePairs, mem_edgePairs, hperm.mem_iff, hperm.mem_iff,
    adj_equiv hnd h p.1 p.2]

theorem connectedG_equiv {es es' : List (PyVal × PyVal)} (hnd : (keys es).Nodup)
    (h : GraphEquiv es es') (hconn : ConnectedG es) : ConnectedG es' := by
  have hperm := graphEquiv_keys_perm h
  intro a ha b hb
  rw [← reach_equiv hnd h a b]
  exact hconn a (hperm.mem_iff.mpr ha) b (hperm.mem_iff.mpr hb)

theorem specTree_equiv {es es' : List (PyVal × PyVal)} (hnd : (keys es).Nodup)
    (h : GraphEquiv es es') : SpecTree (.dict es) ↔ SpecTree (.dict es') := by
  have hnd' : (keys es').Nodup := (graphEquiv_keys_perm h).nodup_iff.mp hnd
  constructor
  · rintro ⟨es0, heq, _, hval, hsym, hne, hcnt, hconn⟩
    injection heq with heq
    subst heq
    refine ⟨es', rfl, hnd', validG_equiv h hval, symP_equiv hnd h hsym, ?_, ?_, ?_⟩
    · intro hcontra
      have hlen := graphEquiv_length h
      rw [hcontra] at hlen
      simp at hlen
      exact hne hlen
    · rw [undirectedEdgeCount, ← edgePairs_eq_of_equiv hnd h,
        ← graphEquiv_length h]
      exact hcnt
    · exact connectedG_equiv hnd h hconn
  · rintro ⟨es0, heq, _, hval, hsym, hne, hcnt, hconn⟩
    injection heq with heq
    subst heq
    have hsymm := graphEquiv_symm h
    refine ⟨es, rfl, hnd, validG_equiv hsymm hval, symP_equiv hnd' hsymm hsym, ?_, ?_, ?_⟩
    · intro hcontra
      have hlen := graphEquiv_length hsymm
      rw [hcontra] at hlen
      simp at hlen
      exact hne hlen
    · rw [undirectedEdgeCount, ← edgePairs_eq_of_equiv hnd' hsymm,
        ← graphEquiv_length hsymm]
      exact hcnt
    · exact connectedG_equiv hnd' hsymm hconn

/-- `isTree` cannot distinguish two descriptions of the same dict contents:
its value is independent of dict insertion order and set iteration order. -/
theorem isTree_equiv {es es' : List (PyVal × PyVal)}
    (hreal : realizableB (.dict es) = true) (h : GraphEquiv es es') :
    isTree (.dict es) = isTree (.dict es') := by
  have hreal' := realizable_equiv h hreal
  have hnd := (realizable_dict_parts hreal).1
  have hiff : (isTree (.dict es) = some true ↔ isTree (.dict es') = some true) := by
    rw [isTree_char hreal, isTree_char hreal']
    exact specTree_equiv hnd h
  have h1 := isTree_isSome (.dict es)
  have h2 := isTree_isSome (.dict es')
  rcases ht1 : isTree (.dict es) with _ | b1
  · rw [ht1] at h1
    cases h1
  rcases ht2 : isTree (.dict es') with _ | b2
  · rw [ht2] at h2
    cases h2
  rw [ht1, ht2] at hiff
  cases b1 with
  | true =>
    cases b2 with
    | true => rfl
    | false =>
      have := hiff.mp rfl
      cases this
  | false =>
    cases b2 with
    | false => rfl
    | true =>
      have := hiff.mpr rfl
      cases this

/-! ## Remaining glue lemmas -/

theorem isTree_true_undirected {v : PyVal} (h : isTree v = some true) :
    isUndirected v = some true := by
  rcases hu : isUndirected v with _ | b
  · have hs := isUndirected_isSome v
    rw [hu] at hs
    cases hs
  cases b with
  | true => rfl
  | false =>
    rw [isTree_undirected_false hu] at h
    cases h

theorem isTree_eq_isTreeNoGuard (v : PyVal) : isTree v = isTreeNoGuard v := by
  cases hc : isNeighborhoodCorrect v with
  | true =>
    obtain ⟨es, rfl⟩ := correct_dict hc
    simp [isTree, isTreeNoGuard, hc]
  | false =>
    have h := isUndirected_of_not_correct hc
    cases v <;> simp [isTreeNoGuard, isTree_of_not_correct hc, h]

/-! ## Specification-side predicates for the claims -/

/-- Spec §3 structural validity of an arbitrary input value: a key-unique
mapping whose keys are ints, whose values are sets of ints drawn from the
key set, with no self-loops. -/
def SpecValid (v : PyVal) : Prop :=
  ∃ es, v = .dict es ∧ (keys es).Nodup ∧ ValidG es

/-- Structural validity together with edge symmetry (spec §4.1
`isUndirected` contract). -/
def SpecUndirected (v : PyVal) : Prop :=
  ∃ es, v = .dict es ∧ (keys es).Nodup ∧ ValidG es ∧ SymP es

/-! ## Example graphs used by the witnesses -/

/-- The 4-vertex tree `{1: {2,3}, 2: {1,4}, 3: {1}, 4: {2}}` of spec §8. -/
def treeEntries : List (PyVal × PyVal) :=
  [(.int 1, .set [.int 2, .int 3]), (.int 2, .set [.int 1, .int 4]),
   (.int 3, .set [.int 1]), (.int 4, .set [.int 2])]

def treeExample : PyVal := .dict treeEntries

/-- `treeEntries` with the neighbor set of vertex 1 iterated in the other
order. -/
def treeMid : List (PyVal × PyVal) :=
  [(.int 1, .set [.int 3, .int 2]), (.int 2, .set [.int 1, .int 4]),
   (.int 3, .set [.int 1]), (.int 4, .set [.int 2])]

/-- `treeMid` with the first two dict entries swapped. -/
def treeShuffled : List (PyVal × PyVal) :=
  [(.int 2, .set [.int 1, .int 4]), (.int 1, .set [.int 3, .int 2]),
   (.int 3, .set [.int 1]), (.int 4, .set [.int 2])]

theorem treeEntries_equiv_shuffled : GraphEquiv treeEntries treeShuffled := by
  refine ⟨treeMid, ?_, ?_⟩
  · refine List.Forall₂.cons ⟨rfl, Or.inl ⟨[PyVal.int 2, PyVal.int 3],
      [PyVal.int 3, PyVal.int 2], rfl, rfl,
      List.Perm.swap (PyVal.int 3) (PyVal.int 2) []⟩⟩ ?_
    exact List.Forall₂.cons (entryEquiv_refl _) (List.Forall₂.cons (entryEquiv_refl _)
      (List.Forall₂.cons (entryEquiv_refl _) List.Forall₂.nil))
  · exact List.Perm.swap (PyVal.int 2, PyVal.set [PyVal.int 1, PyVal.int 4])
      (PyVal.int 1, PyVal.set [PyVal.int 3, PyVal.int 2])
      [(PyVal.int 3, PyVal.set [PyVal.int 1]), (PyVal.int 4, PyVal.set [PyVal.int 2])]

/-! ## The claims -/

/-- C1: for every realizable input graph, `isTree` returns `True` if and
only if the graph is structurally valid (as a key-unique mapping),
undirected, nonempty, connected, and its number of undirected edges equals
`n - 1` where `n` is the vertex count. -/
theorem isTree_iff_specTree (v : PyVal) (hreal : realizableB v = true) :
    isTree v = some true ↔ SpecTree v :=
  isTree_char hreal

theorem isTree_iff_specTree_witness :
    realizableB treeExample = true ∧ SpecTree treeExample :=
  ⟨by decide, (isTree_iff_specTree treeExample (by decide)).mp (by decide)⟩

/-- C2: for every realizable input value, `isNeighborhoodCorrect` (the
structural-validity predicate) returns `True` if and only if the input is a
key-unique mapping with integer keys, set-of-integer values, a closed
vertex set and no self-loops; in particular the empty mapping is
structurally valid (the witness instantiates the equivalence at `{}`). -/
theorem isNeighborhoodCorrect_iff_specValid (v : PyVal)
    (hreal : realizableB v = true) :
    isNeighborhoodCorrect v = true ↔ SpecValid v := by
  constructor
  · intro h
    obtain ⟨es, rfl⟩ := correct_dict h
    exact ⟨es, rfl, (realizable_dict_parts hreal).1, correct_iff.mp h⟩
  · rintro ⟨es, rfl, _, hval⟩
    exact correct_iff.mpr hval

theorem isNeighborhoodCorrect_iff_specValid_witness :
    realizableB (PyVal.dict []) = true ∧ SpecValid (PyVal.dict []) :=
  ⟨by decide, (isNeighborhoodCorrect_iff_specValid (PyVal.dict []) (by decide)).mp (by decide)⟩

/-- C3: for every realizable input value, `isUndirected` returns `True` if
and only if the value is a structurally valid graph in which every edge is
symmetric: `v ∈ N(u)` implies `u ∈ N(v)`. -/
theorem isUndirected_iff_specUndirected (v : PyVal)
    (hreal : realizableB v = true) :
    isUndirected v = some true ↔ SpecUndirected v := by
  rw [isUndirected_true_iff]
  constructor
  · rintro ⟨es, rfl, hval, hsym⟩
    exact ⟨es, rfl, (realizable_dict_parts hreal).1, hval, hsym⟩
  · rintro ⟨es, rfl, _, hval, hsym⟩
    exact ⟨es, rfl, hval, hsym⟩

theorem isUndirected_iff_specUndirected_witness :
    realizableB treeExample = true ∧ SpecUndirected treeExample :=
  ⟨by decide, (isUndirected_iff_specUndirected treeExample (by decide)).mp (by decide)⟩

/-- C4: the monotone implication chain: `isTree` returning `True` implies
`isUndirected` returns `True`, which implies `isNeighborhoodCorrect`
returns `True`. -/
theorem predicate_implication_chain (v : PyVal) :
    (isTree v = some true → isUndirected v = some true) ∧
    (isUndirected v = some true → isNeighborhoodCorrect v = true) :=
  ⟨isTree_true_undirected, isUndirected_correct⟩

theorem predicate_implication_chain_witness :
    isUndirected treeExample = some true :=
  (predicate_implication_chain treeExample).1 (by decide)

/-- C5: the predicates are total: for every input value whatsoever,
`isUndirected` and `isTree` return a boolean (`some _`) rather than raising
(`none`); the embedded unguarded lookups never fail because they sit behind
the structural-validity check.  (`isNeighborhoodCorrect` is `Bool`-valued
in the embedding because its Python body can raise no exception at all.) -/
theorem predicates_total (v : PyVal) :
    (isUndirected v).isSome = true ∧ (isTree v).isSome = true :=
  ⟨isUndirected_isSome v, isTree_isSome v⟩

/-- C6: on the empty mapping, `isNeighborhoodCorrect` returns `True`,
`isUndirected` returns `True`, and `isTree` returns `False`. -/
theorem empty_graph_results :
    isNeighborhoodCorrect (.dict []) = true ∧
    isUndirected (.dict []) = some true ∧
    isTree (.dict []) = some false := by
  refine ⟨rfl, rfl, rfl⟩

/-- C7: for every realizable graph accepted by `isUndirected`, the sum of
the neighbor-set sizes computed by `isTree` is even, so the defensive
odd-parity branch cannot fire. -/
theorem degree_sum_even_when_undirected (v : PyVal)
    (hreal : realizableB v = true) (hu : isUndirected v = some true) :
    ∃ es s, v = .dict es ∧ sumLens es = some s ∧ s % 2 = 0 := by
  obtain ⟨es, rfl, hval, hsym⟩ := isUndirected_true_iff.mp hu
  obtain ⟨hnd, hsetnd⟩ := realizable_dict_parts hreal
  exact ⟨es, degSum es, rfl, sumLens_eq hval.setVal,
    degSum_even hval hnd hsetnd hsym⟩

theorem degree_sum_even_when_undirected_witness :
    ∃ es s, treeExample = .dict es ∧ sumLens es = some s ∧ s % 2 = 0 :=
  degree_sum_even_when_undirected treeExample (by decide) (by decide)

/-- C8: for a realizable, structurally valid, undirected, nonempty graph,
the connectivity verdict of the traversal (`visited count = n`) is the same
for every choice of start key, and the final `isTree` verdict is unchanged
under reordering the dict entries and the neighbor sets (the orders Python
leaves unspecified). -/
theorem traversal_order_independence (es : List (PyVal × PyVal))
    (hreal : realizableB (.dict es) = true)
    (hu : isUndirected (.dict es) = some true) (hne : es ≠ []) :
    (∀ s1 s2, s1 ∈ keys es → s2 ∈ keys es →
      ∀ v1 v2, bfsRun es (fuelBound es) [s1] [] = .ok v1 →
        bfsRun es (fuelBound es) [s2] [] = .ok v2 →
        ((v1.length = es.length) ↔ (v2.length = es.length))) ∧
    (∀ es', GraphEquiv es es' → isTree (.dict es) = isTree (.dict es')) := by
  have hnd := (realizable_dict_parts hreal).1
  obtain ⟨es0, heq, hval, hsym⟩ := isUndirected_true_iff.mp hu
  injection heq with heq
  subst heq
  constructor
  · have key : ∀ a b, a ∈ keys es → b ∈ keys es →
        (∀ k ∈ keys es, Reach es a k) → ∀ k ∈ keys es, Reach es b k := by
      intro a b _ hb hall k hk
      exact Relation.ReflTransGen.trans (reach_symm hsym (hall b hb)) (hall k hk)
    intro s1 s2 hs1 hs2 v1 v2 h1 h2
    rw [bfs_count_iff hval hnd h1, bfs_count_iff hval hnd h2]
    exact ⟨key s1 s2 hs1 hs2, key s2 s1 hs2 hs1⟩
  · intro es' hequiv
    exact isTree_equiv hreal hequiv

theorem traversal_order_independence_witness :
    ((([PyVal.int 4, .int 3, .int 2, .int 1].length = treeEntries.length) ↔
      ([PyVal.int 3, .int 4, .int 1, .int 2].length = treeEntries.length)) ∧
     isTree (.dict treeEntries) = isTree (.dict treeShuffled)) :=
  ⟨(traversal_order_independence treeEntries (by decide) (by decide) (by decide)).1
      (.int 1) (.int 2) (by decide) (by decide)
      [PyVal.int 4, .int 3, .int 2, .int 1] [PyVal.int 3, .int 4, .int 1, .int 2]
      (by decide) (by decide),
   (traversal_order_independence treeEntries (by decide) (by decide) (by decide)).2
      treeShuffled treeEntries_equiv_shuffled⟩

/-- C9: the BFS loop of `isTree` terminates on every structurally valid
nonempty graph: at the fuel bound `isTree` passes, the loop never runs out
of fuel (each iteration pops a queue element and either discards a visited
vertex or newly visits one, and the total work is bounded by the graph
weight). -/
theorem bfs_terminates (es : List (PyVal × PyVal))
    (hc : isNeighborhoodCorrect (.dict es) = true) (hne : es ≠ []) :
    ∀ s ∈ keys es, bfsRun es (fuelBound es) [s] [] ≠ .fuelOut := by
  intro s _
  apply bfsRun_ne_fuelOut
  show [s].length + graphWeight es [] ≤ fuelBound es
  rw [fuelBound]
  simp

theorem bfs_terminates_witness :
    bfsRun treeEntries (fuelBound treeEntries) [.int 1] [] ≠ .fuelOut :=
  bfs_terminates treeEntries (by decide) (by decide) (.int 1) (by decide)

/-- C10: the leading structural-validity check inside `isTree` is
redundant: for every input, `isTree` coincides with the variant that skips
that check, because `isUndirected` performs the same check and
short-circuits to `False` on its failure. -/
theorem isTree_guard_redundant (v : PyVal) : isTree v = isTreeNoGuard v :=
  isTree_eq_isTreeNoGuard v

end CommGraph
